import Mathlib

/-!
Verification of the md-edit text-editing core against its specification.

The development shallowly embeds the Rust sources:
* `src/editor/text_buffer.rs` — the gap-buffer `TextBuffer`,
* `src/editor/mod.rs` — `Editor` / `EditHistory`,
* `src/markdown/mod.rs` — `MarkdownRenderer::render`.

Machine bytes are modelled as `Nat` (values < 256 in all uses); `Vec<u8>`
becomes `List Nat` in the same order.  Rust operations that can panic
(indexing out of bounds, `Vec::remove` on an empty vector) are modelled in
`Option`, with `none` standing for the panic.  `&str`/`String` values are
modelled as UTF-8 byte lists; `str::from_utf8(..).unwrap_or("")` is modelled
by `decodeLossy`, which keeps a byte list exactly when it is valid UTF-8 and
otherwise yields the empty list, mirroring the source.
-/

/-- Is `b` a UTF-8 continuation byte (`0x80..=0xBF`)? -/
def isCont (b : Nat) : Bool := 128 ≤ b && b < 192

/-- Allowed second byte of a three-byte sequence with lead byte `b0`
(`0xE0` requires `0xA0..=0xBF`, `0xED` requires `0x80..=0x9F`). -/
def isSecond3 (b0 b1 : Nat) : Bool :=
  if b0 = 224 then 160 ≤ b1 && b1 < 192
  else if b0 = 237 then 128 ≤ b1 && b1 < 160
  else isCont b1

/-- Allowed second byte of a four-byte sequence with lead byte `b0`
(`0xF0` requires `0x90..=0xBF`, `0xF4` requires `0x80..=0x8F`). -/
def isSecond4 (b0 b1 : Nat) : Bool :=
  if b0 = 240 then 144 ≤ b1 && b1 < 192
  else if b0 = 244 then 128 ≤ b1 && b1 < 144
  else isCont b1

/-- UTF-8 validity of a byte list, as checked by `str::from_utf8`. -/
def utf8Valid : List Nat → Bool
  | [] => true
  | b :: l =>
    if b < 128 then utf8Valid l
    else if b < 194 then false
    else if b < 224 then
      match l with
      | b1 :: l1 => isCont b1 && utf8Valid l1
      | [] => false
    else if b < 240 then
      match l with
      | b1 :: b2 :: l2 => isSecond3 b b1 && isCont b2 && utf8Valid l2
      | _ => false
    else if b < 245 then
      match l with
      | b1 :: b2 :: b3 :: l3 => isSecond4 b b1 && isCont b2 && isCont b3 && utf8Valid l3
      | _ => false
    else false

/-- `str::from_utf8(bytes).unwrap_or("")`: the bytes themselves when they are
valid UTF-8, the empty string otherwise. -/
def decodeLossy (l : List Nat) : List Nat := if utf8Valid l then l else []

/-- Read `l[i]` (Rust panics when out of bounds: `none`). -/
def getC (l : List Nat) (i : Nat) : Option Nat := l[i]?

/-- Write `l[i] = v` (Rust panics when out of bounds: `none`). -/
def setC (l : List Nat) (i : Nat) (v : Nat) : Option (List Nat) :=
  if i < l.length then some (l.set i v) else none

/-- `for i in 0..n { l[dst + i] = l[src + i] }` — ascending element-wise copy
on a single buffer, with Rust's aliasing behaviour (each read sees earlier
writes of the same loop). -/
def copyFwd : List Nat → Nat → Nat → Nat → Option (List Nat)
  | l, _, _, 0 => some l
  | l, src, dst, n + 1 => do
    let v ← getC l src
    let l1 ← setC l dst v
    copyFwd l1 (src + 1) (dst + 1) n

/-- `for i in (0..n).rev() { l[dst + i] = l[src + i] }` — descending
element-wise copy on a single buffer. -/
def copyBwd : List Nat → Nat → Nat → Nat → Option (List Nat)
  | l, _, _, 0 => some l
  | l, src, dst, n + 1 => do
    let v ← getC l (src + n)
    let l1 ← setC l (dst + n) v
    copyBwd l1 src dst n

/-- `for (i, &byte) in text.iter().enumerate() { l[at + i] = byte }`. -/
def writeAt : List Nat → Nat → List Nat → Option (List Nat)
  | l, _, [] => some l
  | l, i, c :: cs => do
    let l1 ← setC l i c
    writeAt l1 (i + 1) cs

/-- `Vec::resize(n, v)`: truncate to `n` elements or pad with `v`. -/
def resizeList (l : List Nat) (n : Nat) (v : Nat) : List Nat :=
  if n ≤ l.length then l.take n else l ++ List.replicate (n - l.length) v

/-- `&l[a..b]` (Rust panics when `a > b` or `b > l.len()`: `none`). -/
def rustSlice (l : List Nat) (a b : Nat) : Option (List Nat) :=
  if a ≤ b ∧ b ≤ l.length then some ((l.take b).drop a) else none

/-- Logical slice `t[a..b]` of an in-bounds range, used on spec side. -/
def sliceL (t : List Nat) (a b : Nat) : List Nat := (t.take b).drop a

/-- Drop every trailing occurrence of byte `v`
(`str::trim_end_matches` with a single-char pattern). -/
def trimTrail (v : Nat) (l : List Nat) : List Nat :=
  (l.reverse.dropWhile (fun c => c = v)).reverse

/-- The gap buffer of `src/editor/text_buffer.rs`.  `storage` is the backing
`Vec<u8>`; the gap is `[gap_start, gap_end)`; `line_starts` caches the byte
offsets at which lines begin and `line_cache_dirty` marks it stale. -/
structure TextBuffer where
  storage : List Nat
  gap_start : Nat
  gap_end : Nat
  line_starts : List Nat
  line_cache_dirty : Bool
deriving DecidableEq, Repr

namespace TextBuffer

/-- `TextBuffer::len`: total byte length excluding the gap. -/
def len (b : TextBuffer) : Nat := b.storage.length - (b.gap_end - b.gap_start)

/-- `TextBuffer::as_str`: decode the zone before the gap and the zone after
it (each via `from_utf8(..).unwrap_or("")`) and concatenate.  Under the gap
invariant `gap_start ≤ gap_end ≤ storage.len()` the two Rust slices are in
bounds, where `take`/`drop` agree with them exactly. -/
def as_str (b : TextBuffer) : List Nat :=
  decodeLossy (b.storage.take b.gap_start) ++ decodeLossy (b.storage.drop b.gap_end)

/-- Byte offsets of line starts of `rebuild_line_cache`'s scan, positions
after each newline byte.  `flen` is the total text length used by the
`next_start <= text.len()` guard; `i` the index of the current byte.
On the valid UTF-8 text produced by `as_str`, the bytes equal to 10 are
exactly the `'\n'` characters seen by `char_indices`. -/
def lineStartsAux (flen : Nat) : List Nat → Nat → List Nat
  | [], _ => []
  | c :: rest, i =>
    if c = 10 then
      (if i + 1 ≤ flen then [i + 1] else []) ++ lineStartsAux flen rest (i + 1)
    else lineStartsAux flen rest (i + 1)

/-- The full line-start table of a text: offset 0 plus the position after
each newline. -/
def lineStartsOf (t : List Nat) : List Nat := 0 :: lineStartsAux t.length t 0

/-- `TextBuffer::rebuild_line_cache`. -/
def rebuild_line_cache (b : TextBuffer) : TextBuffer :=
  { b with line_starts := lineStartsOf b.as_str, line_cache_dirty := false }

/-- `TextBuffer::rebuild_line_cache_if_needed`. -/
def rebuild_line_cache_if_needed (b : TextBuffer) : TextBuffer :=
  if b.line_cache_dirty then b.rebuild_line_cache else b

/-- `TextBuffer::from`: storage holds exactly the text's bytes and the gap is
empty at the end; the line cache is rebuilt immediately. -/
def fromText (text : List Nat) : TextBuffer :=
  rebuild_line_cache
    { storage := text
      gap_start := text.length
      gap_end := text.length
      line_starts := [0]
      line_cache_dirty := true }

/-- `TextBuffer::move_gap`: move the gap so that it starts at `pos`
(clamped to the logical length).  The copies are the source's ascending
per-element loops, including their aliasing behaviour. -/
def move_gap (b : TextBuffer) (pos : Nat) : Option TextBuffer :=
  if pos = b.gap_start then some b
  else
    let p := min pos b.len
    if p < b.gap_start then
      let move_len := b.gap_start - p
      do
        let st ← copyFwd b.storage p (b.gap_end - move_len) move_len
        some { b with storage := st
                      gap_start := b.gap_start - move_len
                      gap_end := b.gap_end - move_len }
    else
      let move_len := p - b.gap_start
      do
        let st ← copyFwd b.storage b.gap_end b.gap_start move_len
        some { b with storage := st
                      gap_start := b.gap_start + move_len
                      gap_end := b.gap_end + move_len }

/-- `TextBuffer::grow_gap`: resize storage to `gap_end + additional` and copy
the bytes from `gap_end` onwards up by `additional`, descending. -/
def grow_gap (b : TextBuffer) (additional : Nat) : Option TextBuffer :=
  let new_gap_end := b.gap_end + additional
  let st1 := resizeList b.storage new_gap_end 0
  let src_start := b.gap_end
  let dst_start := b.gap_end + additional
  let n := st1.length - src_start
  do
    let st2 ← copyBwd st1 src_start dst_start n
    some { b with storage := st2, gap_end := new_gap_end }

/-- `TextBuffer::insert`: move the gap to `pos`, grow it when the text does
not fit, write the text into the gap and advance `gap_start`. -/
def insert (b : TextBuffer) (pos : Nat) (text : List Nat) : Option TextBuffer := do
  let b ← b.move_gap pos
  let text_len := text.length
  let gap_size := b.gap_end - b.gap_start
  let b ←
    if gap_size < text_len then
      b.grow_gap (max (text_len - gap_size) (b.storage.length / 2))
    else pure b
  let st ← writeAt b.storage b.gap_start text
  some { b with storage := st
                gap_start := b.gap_start + text_len
                line_cache_dirty := true }

/-- `TextBuffer::delete_range`: no-op unless `start < end`; clamp both ends
to the logical length, move the gap to the clamped end and pull `gap_start`
back over the deleted span.  (`gap_start` equals the clamped end after
`move_gap`, so the subtraction cannot underflow.) -/
def delete_range (b : TextBuffer) (start stop : Nat) : Option TextBuffer :=
  if start ≥ stop then some b
  else
    let l := b.len
    let s := min start l
    let e := min stop l
    do
      let b ← b.move_gap e
      some { b with gap_start := b.gap_start - (e - s), line_cache_dirty := true }

/-- `TextBuffer::replace_range`: delete then insert at the range start. -/
def replace_range (b : TextBuffer) (start stop : Nat) (text : List Nat) :
    Option TextBuffer := do
  let b ← b.delete_range start stop
  b.insert start text

/-- `TextBuffer::line_count` (after the lazy cache rebuild). -/
def line_count (b : TextBuffer) : Nat :=
  (rebuild_line_cache_if_needed b).line_starts.length

/-- `TextBuffer::substring`: materialize logical range `[start, stop)`,
splitting around the gap; each physical piece is decoded with
`from_utf8(..).unwrap_or("")`.  `none` models a panicking slice. -/
def substring (b : TextBuffer) (start stop : Nat) : Option (List Nat) :=
  if stop ≤ b.gap_start ∨ b.gap_start ≤ start then
    if stop ≤ b.gap_start then
      (rustSlice b.storage start stop).map decodeLossy
    else
      let off := b.gap_end - b.gap_start
      (rustSlice b.storage (start + off) (stop + off)).map decodeLossy
  else do
    let p1 ← rustSlice b.storage start b.gap_start
    let off := b.gap_end - b.gap_start
    let p2 ← rustSlice b.storage b.gap_end (stop + off)
    some (decodeLossy p1 ++ decodeLossy p2)

/-- `TextBuffer::line_text`: `none` models a panic, `some none` is Rust's
`None`, `some (some t)` is `Some(t)` with all trailing `'\n'` then all
trailing `'\r'` removed. -/
def line_text (b : TextBuffer) (line : Nat) : Option (Option (List Nat)) :=
  let b := rebuild_line_cache_if_needed b
  if b.line_starts.length ≤ line then some none
  else
    match b.line_starts[line]? with
    | none => none
    | some s =>
      let eOpt :=
        if line + 1 < b.line_starts.length then b.line_starts[line + 1]?
        else some b.len
      match eOpt with
      | none => none
      | some e => (b.substring s e).map (fun t => some (trimTrail 13 (trimTrail 10 t)))

/-- The structural invariant of the gap buffer
(`gap_start ≤ gap_end ≤ storage.len()`). -/
def WF (b : TextBuffer) : Prop :=
  b.gap_start ≤ b.gap_end ∧ b.gap_end ≤ b.storage.length

instance (b : TextBuffer) : Decidable b.WF := by unfold WF; infer_instance

end TextBuffer

/-- A reversible edit record (`Edit` in `src/editor/mod.rs`); texts are byte
lists. -/
structure Edit where
  old_text : List Nat
  new_text : List Nat
  position : Nat
  cursor_before : Nat × Nat
  cursor_after : Nat × Nat
deriving DecidableEq, Repr

/-- `EditHistory`: bounded undo/redo stacks.  Lists are kept in the `Vec`
order: index 0 is the oldest record, the end of the list is the stack top. -/
structure EditHistory where
  undo_stack : List Edit
  redo_stack : List Edit
  max_size : Nat
deriving DecidableEq, Repr

namespace EditHistory

/-- `EditHistory::new`. -/
def new (max_size : Nat) : EditHistory :=
  { undo_stack := [], redo_stack := [], max_size := max_size }

/-- `EditHistory::push`: when the undo stack is at capacity, evict index 0
(`Vec::remove(0)` — a panic, hence `none`, when the stack is empty, which
requires `max_size = 0`); then append and clear the redo stack. -/
def push (h : EditHistory) (e : Edit) : Option EditHistory :=
  if h.max_size ≤ h.undo_stack.length then
    match h.undo_stack with
    | [] => none
    | _ :: t => some { h with undo_stack := t ++ [e], redo_stack := [] }
  else some { h with undo_stack := h.undo_stack ++ [e], redo_stack := [] }

/-- `EditHistory::undo`: pop the undo stack, push the record onto the redo
stack and return it; `(h, none)` when empty. -/
def undo (h : EditHistory) : EditHistory × Option Edit :=
  match h.undo_stack.getLast? with
  | some e =>
    ({ h with undo_stack := h.undo_stack.dropLast, redo_stack := h.redo_stack ++ [e] },
     some e)
  | none => (h, none)

/-- `EditHistory::redo`: pop the redo stack, push the record back onto the
undo stack (no capacity check) and return it. -/
def redo (h : EditHistory) : EditHistory × Option Edit :=
  match h.redo_stack.getLast? with
  | some e =>
    ({ h with undo_stack := h.undo_stack ++ [e], redo_stack := h.redo_stack.dropLast },
     some e)
  | none => (h, none)

/-- `EditHistory::clear`. -/
def clear (h : EditHistory) : EditHistory :=
  { h with undo_stack := [], redo_stack := [] }

end EditHistory

/-- One `EditHistory` operation, for quantifying over call sequences. -/
inductive HistOp where
  | push (e : Edit)
  | undo
  | redo
deriving DecidableEq, Repr

/-- Apply one operation (`undo`/`redo` return values are dropped; `push` may
panic, see `EditHistory.push`). -/
def histStep (h : EditHistory) : HistOp → Option EditHistory
  | .push e => h.push e
  | .undo => some (h.undo).1
  | .redo => some (h.redo).1

/-- Run a sequence of history operations. -/
def histRun (h : EditHistory) : List HistOp → Option EditHistory
  | [] => some h
  | op :: ops => (histStep h op).bind (fun h1 => histRun h1 ops)

/-- The `Editor` of `src/editor/mod.rs`, restricted to the fields the editing
core reads or writes (the GUI-only fields — focus flag, scroll offset,
`egui` text-edit state, config — are omitted). -/
structure Editor where
  buffer : TextBuffer
  cursor_position : Nat × Nat
  selection : Option (Nat × Nat)
  history : EditHistory
  dirty : Bool
deriving DecidableEq, Repr

namespace Editor

/-- `Editor::new` (history capacity 1000). -/
def new : Editor :=
  { buffer := { storage := [], gap_start := 0, gap_end := 0,
                line_starts := [0], line_cache_dirty := false }
    cursor_position := (0, 0)
    selection := none
    history := EditHistory.new 1000
    dirty := false }

/-- `Editor::text`. -/
def text (ed : Editor) : List Nat := ed.buffer.as_str

/-- `Editor::set_text`: replace the buffer, clear the dirty flag and the
history. -/
def set_text (ed : Editor) (t : List Nat) : Editor :=
  { ed with buffer := TextBuffer.fromText t, dirty := false,
            history := ed.history.clear }

/-- `Editor::can_undo`. -/
def can_undo (ed : Editor) : Bool := !ed.history.undo_stack.isEmpty

/-- `Editor::can_redo`. -/
def can_redo (ed : Editor) : Bool := !ed.history.redo_stack.isEmpty

/-- `Editor::undo`: pop a record and replace the region now holding
`new_text` with `old_text` (`none` models a panic inside `replace_range`). -/
def undo (ed : Editor) : Option Editor :=
  match ed.history.undo with
  | (h1, some e) =>
    (ed.buffer.replace_range e.position (e.position + e.new_text.length) e.old_text).map
      (fun buf => { ed with buffer := buf, history := h1,
                            cursor_position := e.cursor_before, dirty := true })
  | (h1, none) => some { ed with history := h1 }

/-- `Editor::redo`: pop a redo record and replace the region holding
`old_text` with `new_text`. -/
def redo (ed : Editor) : Option Editor :=
  match ed.history.redo with
  | (h1, some e) =>
    (ed.buffer.replace_range e.position (e.position + e.old_text.length) e.new_text).map
      (fun buf => { ed with buffer := buf, history := h1,
                            cursor_position := e.cursor_after, dirty := true })
  | (h1, none) => some { ed with history := h1 }

/-- Modelled from the spec: recording an edit.  `src/` never calls
`EditHistory::push` (no call site exists), while the spec's data flow says
"session mutates TextStore → EditHistory records the reversible delta" and
defines an `Edit` so that "applying `new_text` at `position` replacing
`old_text.len()` bytes redoes".  Recording therefore applies the forward
delta through `replace_range` and pushes the record. -/
def apply_edit (ed : Editor) (e : Edit) : Option Editor := do
  let buf ← ed.buffer.replace_range e.position (e.position + e.old_text.length) e.new_text
  let h ← ed.history.push e
  some { ed with buffer := buf, history := h,
                 cursor_position := e.cursor_after, dirty := true }

end Editor

/-- The `pulldown_cmark` start tags the renderer distinguishes; every other
tag (heading, paragraph, emphasis, link, …) falls into `other`, which the
source's `_ => {}` arm ignores. -/
inductive MdTag where
  | list (start_num : Option Nat)
  | item
  | blockQuote
  | codeBlock (fencedLang : Option String)
  | heading (level : Nat)
  | paragraph
  | other
deriving DecidableEq, Repr

/-- The `pulldown_cmark` end tags the renderer distinguishes; the remaining
ones fall into `other`. -/
inductive MdTagEnd where
  | list
  | item
  | blockQuote
  | codeBlock
  | heading
  | paragraph
  | other
deriving DecidableEq, Repr

/-- A `pulldown_cmark::Event`; variants the source never inspects share the
catch-all constructors. -/
inductive MdEvent where
  | start (tag : MdTag)
  | stop (tag : MdTagEnd)
  | text (s : String)
  | code (s : String)
  | html (s : String)
  | softBreak
  | hardBreak
  | rule
deriving DecidableEq, Repr

/-- `RenderedElement` of `src/markdown/mod.rs`. -/
inductive RenderedElement where
  | heading (level : Nat) (text : String)
  | paragraph (text : String)
  | codeBlock (lang : String) (code : String)
  | inlineCode (text : String)
  | blockQuote (children : List RenderedElement)
  | unorderedList (items : List (List RenderedElement))
  | orderedList (items : List (List RenderedElement))
  | horizontalRule
  | link (text url : String)
  | image (alt url : String)
  | rawHtml (s : String)
  | lineBreak
  | strong (text : String)
  | emphasis (text : String)
  | strikethrough (text : String)

/-- The renderer's loop state.  `elements` keeps the output order of the
source's `Vec` (append at the end).  The two stacks are modelled with the
list head as the `Vec`'s last element (the innermost open frame), so
`push`/`pop`/`last_mut` act on the head. -/
structure RenderState where
  elements : List RenderedElement
  current_element : Option RenderedElement
  list_stack : List (Bool × List (List RenderedElement))
  blockquote_stack : List (List RenderedElement)

namespace RenderState

def initial : RenderState :=
  { elements := [], current_element := none, list_stack := [], blockquote_stack := [] }

/-- Flush `current_element` into `elements` (`if let Some(elem) =
current_element.take()`). -/
def flushCurrent (st : RenderState) : RenderState :=
  match st.current_element with
  | some e => { st with elements := st.elements ++ [e], current_element := none }
  | none => st

/-- Append an element to the innermost open list item
(`last_mut` on the stack, then `last_mut` on its item list). -/
def pushToInnerItem (st : RenderState) (e : RenderedElement) : RenderState :=
  match st.list_stack with
  | (ord, items) :: rest =>
    match items.getLast? with
    | some it => { st with list_stack := (ord, items.dropLast ++ [it ++ [e]]) :: rest }
    | none => st
  | [] => st

end RenderState

/-- One iteration of the `for event in parser` loop of
`MarkdownRenderer::render`. -/
def renderStep (st : RenderState) : MdEvent → RenderState
  | .start tag =>
    match tag with
    | .list start_num =>
      let st := st.flushCurrent
      { st with list_stack := (start_num.isSome, []) :: st.list_stack }
    | .item =>
      match st.list_stack with
      | (ord, items) :: rest =>
        { st with list_stack := (ord, items ++ [[]]) :: rest }
      | [] => st
    | .blockQuote =>
      let st := st.flushCurrent
      { st with blockquote_stack := [] :: st.blockquote_stack }
    | .codeBlock kind =>
      let st := st.flushCurrent
      let lang := match kind with | some l => l | none => ""
      { st with current_element := some (.codeBlock lang "") }
    | _ => st
  | .stop tag =>
    match tag with
    | .list =>
      match st.list_stack with
      | (is_ordered, items) :: rest =>
        let st := { st with list_stack := rest }
        let st := st.flushCurrent
        if is_ordered then
          { st with elements := st.elements ++ [.orderedList items] }
        else
          { st with elements := st.elements ++ [.unorderedList items] }
      | [] => st
    | .blockQuote =>
      match st.blockquote_stack with
      | items :: rest =>
        let st := { st with blockquote_stack := rest }
        let st := st.flushCurrent
        { st with elements := st.elements ++ [.blockQuote items] }
      | [] => st
    | .codeBlock => st.flushCurrent
    | _ => st
  | .text s =>
    match st.current_element with
    | some e =>
      match e with
      | .codeBlock lang code => { st with current_element := some (.codeBlock lang (code ++ s)) }
      | .paragraph p => { st with current_element := some (.paragraph (p ++ s)) }
      | _ => st
    | none =>
      match st.list_stack with
      | _ :: _ => st.pushToInnerItem (.paragraph s)
      | [] =>
        match st.blockquote_stack with
        | items :: rest => { st with blockquote_stack := (items ++ [.paragraph s]) :: rest }
        | [] => { st with elements := st.elements ++ [.paragraph s] }
  | .code s =>
    match st.list_stack with
    | _ :: _ => st.pushToInnerItem (.inlineCode s)
    | [] => { st with elements := st.elements ++ [.inlineCode s] }
  | .html s => { st with elements := st.elements ++ [.rawHtml s] }
  | .softBreak => st
  | .hardBreak =>
    match st.current_element with
    | some e =>
      match e with
      | .paragraph p => { st with current_element := some (.paragraph (p ++ "\n")) }
      | _ => st
    | none => { st with elements := st.elements ++ [.lineBreak] }
  | .rule => { st with elements := st.elements ++ [.horizontalRule] }

/-- `MarkdownRenderer::render` on an event stream: fold the loop over the
events and flush a still-open `current_element` at the end.  (The theme
held by the renderer never affects this computation.) -/
def renderEvents (events : List MdEvent) : List RenderedElement :=
  ((events.foldl renderStep RenderState.initial).flushCurrent).elements

/-- The event stream `pulldown_cmark::Parser::new("# Title")` produces
(external crate, not part of this repository): an ATX heading open tag of
level 1, the inline text `"Title"`, and the matching heading end tag. -/
def eventsHashTitle : List MdEvent :=
  [.start (.heading 1), .text "Title", .stop .heading]

/-- Event stream of a two-level nested unordered list (as `pulldown_cmark`
produces for `"- - a"`-style input): outer list and item open, inner list
with one item containing text `"a"`, then all blocks close. -/
def eventsNestedList : List MdEvent :=
  [.start (.list none), .start .item, .start (.list none), .start .item,
   .text "a", .stop .item, .stop .list, .stop .item, .stop .list]

/-- The buffer `TextBuffer::from("abcd")` followed by `delete_range(3..4)`
produces: storage `abcd`, gap `[3, 4)`, logical text `abc`. -/
def cexBuf0 : TextBuffer :=
  { storage := [97, 98, 99, 100], gap_start := 3, gap_end := 4,
    line_starts := [0], line_cache_dirty := true }

/-- Result of `move_gap(0)` on `cexBuf0`: the overlapping ascending copy has
smeared byte `97` over the span, logical text `aaa`. -/
def cexBuf1 : TextBuffer :=
  { storage := [97, 97, 97, 97], gap_start := 0, gap_end := 1,
    line_starts := [0], line_cache_dirty := true }

/-- Recorded edit replacing `"ab"` by `"A"` at position 0. -/
def cexEdit1 : Edit :=
  { old_text := [97, 98], new_text := [65], position := 0,
    cursor_before := (0, 0), cursor_after := (0, 0) }

/-- Recorded edit replacing `"f"` by `"F"` at position 4 (of the text that
`cexEdit1` produced). -/
def cexEdit2 : Edit :=
  { old_text := [102], new_text := [70], position := 4,
    cursor_before := (0, 0), cursor_after := (0, 0) }

/-- Has the buffer's line cache either been marked dirty or does it hold the
true line table?  Every state the source can reach satisfies this, and the
lazy rebuild restores the second disjunct before any read. -/
def TextBuffer.CacheOK (b : TextBuffer) : Prop :=
  b.line_cache_dirty = true ∨ b.line_starts = TextBuffer.lineStartsOf b.as_str

/-- Both text zones of the buffer hold valid UTF-8 (always true when the
buffer's content came in through `&str` values, as in the source API). -/
def TextBuffer.ZonesValid (b : TextBuffer) : Prop :=
  utf8Valid (b.storage.take b.gap_start) = true ∧
    utf8Valid (b.storage.drop b.gap_end) = true

instance (b : TextBuffer) : Decidable b.CacheOK := by
  unfold TextBuffer.CacheOK; infer_instance

instance (b : TextBuffer) : Decidable b.ZonesValid := by
  unfold TextBuffer.ZonesValid; infer_instance

/-- Spec-side start offset of line `i` of text `t`. -/
def lineStartPos (t : List Nat) (i : Nat) : Nat :=
  (TextBuffer.lineStartsOf t).getD i 0

/-- Spec-side end offset (exclusive, including the newline) of line `i`. -/
def lineEndPos (t : List Nat) (i : Nat) : Nat :=
  if i + 1 < (TextBuffer.lineStartsOf t).length then
    (TextBuffer.lineStartsOf t).getD (i + 1) 0
  else t.length

/-- Spec-side contents of line `i`: the slice of the text between
consecutive line starts, with the trailing newline and then any trailing
carriage returns removed. -/
def specLine (t : List Nat) (i : Nat) : List Nat :=
  trimTrail 13 (trimTrail 10 (sliceL t (lineStartPos t i) (lineEndPos t i)))


/-- Editor state after `set_text("abcdef")`. -/
def cexEd0 : Editor :=
  { buffer := ⟨[97, 98, 99, 100, 101, 102], 6, 6, [0], false⟩,
    cursor_position := (0, 0), selection := none,
    history := ⟨[], [], 1000⟩, dirty := false }

/-- After recording `cexEdit1` (`"ab"→"A"` at 0): text `"Acdef"`. -/
def cexEd1 : Editor :=
  { buffer := ⟨[65, 98, 99, 100, 101, 102], 1, 2, [0], true⟩,
    cursor_position := (0, 0), selection := none,
    history := ⟨[cexEdit1], [], 1000⟩, dirty := true }

/-- After recording `cexEdit2` (`"f"→"F"` at 4): text `"AcdeF"`. -/
def cexEd2 : Editor :=
  { buffer := ⟨[65, 99, 100, 101, 70, 102], 5, 6, [0], true⟩,
    cursor_position := (0, 0), selection := none,
    history := ⟨[cexEdit1, cexEdit2], [], 1000⟩, dirty := true }

/-- After the first undo: text `"Acdef"` again. -/
def cexEd3 : Editor :=
  { buffer := ⟨[65, 99, 100, 101, 102, 102], 5, 6, [0], true⟩,
    cursor_position := (0, 0), selection := none,
    history := ⟨[cexEdit1], [cexEdit2], 1000⟩, dirty := true }

/-- After the second undo: text `"abcccc"` — already corrupted (`move_gap`'s
overlapping copy), instead of `"abcdef"`. -/
def cexEd4 : Editor :=
  { buffer := ⟨[97, 98, 99, 99, 99, 99], 2, 2, [0], true⟩,
    cursor_position := (0, 0), selection := none,
    history := ⟨[], [cexEdit2, cexEdit1], 1000⟩, dirty := true }

/-- After the first redo: text `"Acccc"`. -/
def cexEd5 : Editor :=
  { buffer := ⟨[65, 98, 99, 99, 99, 99], 1, 2, [0], true⟩,
    cursor_position := (0, 0), selection := none,
    history := ⟨[cexEdit1], [cexEdit2], 1000⟩, dirty := true }

/-- After the second redo: text `"AcccF"`, not the pre-undo `"AcdeF"`. -/
def cexEd6 : Editor :=
  { buffer := ⟨[65, 99, 99, 99, 70, 99], 5, 6, [0], true⟩,
    cursor_position := (0, 0), selection := none,
    history := ⟨[cexEdit1, cexEdit2], [], 1000⟩, dirty := true }


/-! ## Supporting lemmas -/

theorem resizeList_length (l : List Nat) (n v : Nat) :
    (resizeList l n v).length = n := by
  unfold resizeList
  split
  · simp; omega
  · simp; omega

theorem set_self_of_getElem (l : List Nat) (i : Nat) (h : i < l.length) :
    l.set i l[i] = l := by
  apply List.ext_getElem
  · simp
  · intro n h1 h2
    simp only [List.getElem_set]
    split
    · rename_i he; subst he; rfl
    · rfl

theorem copyFwd_self (n : Nat) : ∀ (l : List Nat) (s : Nat),
    s + n ≤ l.length → copyFwd l s s n = some l := by
  induction n with
  | zero => intro l s _; rfl
  | succ k ih =>
    intro l s h
    have hs : s < l.length := by omega
    unfold copyFwd
    rw [getC, List.getElem?_eq_getElem hs]
    show (setC l s l[s]).bind (fun l1 => copyFwd l1 (s + 1) (s + 1) k) = some l
    unfold setC
    rw [if_pos hs]
    show copyFwd (l.set s l[s]) (s + 1) (s + 1) k = some l
    rw [set_self_of_getElem l s hs]
    exact ih l (s + 1) (by omega)

theorem copyBwd_oob (l : List Nat) (src dst n : Nat) (hr : src + n < l.length)
    (hw : l.length ≤ dst + n) : copyBwd l src dst (n + 1) = none := by
  unfold copyBwd
  rw [getC, List.getElem?_eq_getElem hr]
  show (setC l (dst + n) l[src + n]).bind (fun l1 => copyBwd l1 src dst n) = none
  unfold setC
  rw [if_neg (by omega)]
  rfl

theorem grow_gap_eq_none (b : TextBuffer) (a : Nat) (ha : 0 < a) :
    b.grow_gap a = none := by
  obtain ⟨m, rfl⟩ : ∃ m, a = m + 1 := ⟨a - 1, by omega⟩
  obtain ⟨st, gs, ge, ls, dc⟩ := b
  simp only [TextBuffer.grow_gap]
  rw [resizeList_length]
  have h2 : ge + (m + 1) - ge = m + 1 := by omega
  rw [h2]
  rw [copyBwd_oob _ _ _ m (by rw [resizeList_length]; omega)
    (by rw [resizeList_length]; omega)]
  rfl

theorem move_gap_empty_gap (b : TextBuffer) (hgap : b.gap_start = b.gap_end)
    (hle : b.gap_end ≤ b.storage.length) (p : Nat) :
    b.move_gap p = some { b with gap_start := min p b.len, gap_end := min p b.len } := by
  obtain ⟨st, gs, ge, ls, dc⟩ := b
  simp only at hgap hle
  subst hgap
  have hlen : TextBuffer.len ⟨st, gs, gs, ls, dc⟩ = st.length := by
    simp [TextBuffer.len]
  simp only [TextBuffer.move_gap, hlen]
  by_cases he : p = gs
  · rw [if_pos (by simpa using he)]
    have hm : min p st.length = gs := by omega
    simp [hm]
  · rw [if_neg (by simpa using he)]
    by_cases hlt : min p st.length < gs
    · rw [if_pos (by simpa using hlt)]
      rw [show gs - (gs - p ⊓ st.length) = p ⊓ st.length from by omega]
      rw [copyFwd_self (gs - p ⊓ st.length) st (p ⊓ st.length) (by omega)]
      rfl
    · rw [if_neg (by simpa using hlt)]
      rw [copyFwd_self (p ⊓ st.length - gs) st gs (by omega)]
      rw [show gs + (p ⊓ st.length - gs) = p ⊓ st.length from by omega]
      rfl

theorem insert_empty_gap_none (b : TextBuffer) (hgap : b.gap_start = b.gap_end)
    (hle : b.gap_end ≤ b.storage.length) (p : Nat) (s : List Nat) (hs : s ≠ []) :
    b.insert p s = none := by
  simp only [TextBuffer.insert]
  rw [move_gap_empty_gap b hgap hle p]
  simp only [Option.bind_eq_bind, Option.some_bind]
  obtain ⟨st, gs, ge, ls, dc⟩ := b
  simp only at hgap hle
  subst hgap
  have hsz : (0 : Nat) < s.length := List.length_pos.mpr hs
  rw [if_pos (by simp; omega)]
  rw [grow_gap_eq_none _ _ (by
    refine Nat.lt_of_lt_of_le ?_ (Nat.le_max_left _ _)
    simp
    omega)]
  rfl

theorem decodeLossy_of_valid (l : List Nat) (h : utf8Valid l = true) :
    decodeLossy l = l := by
  unfold decodeLossy
  rw [h]
  rfl

/-! ## C1 — insert then delete on a fresh store -/

/-- C1: the claimed insert/delete inverse fails on the code.  On a store
freshly built from any text the gap is empty, so inserting any non-empty
string takes the `grow_gap` path, which panics with an out-of-bounds index
(`none`); the insert-then-delete pipeline therefore never returns the
original text. -/
theorem insert_then_delete_panics (t : List Nat) (p : Nat) (s : List Nat)
    (_hp : p ≤ t.length) (hs : s ≠ []) :
    ((TextBuffer.fromText t).insert p s).bind
      (fun b => b.delete_range p (p + s.length)) = none := by
  rw [insert_empty_gap_none (TextBuffer.fromText t) rfl (by simp [TextBuffer.fromText,
    TextBuffer.rebuild_line_cache]) p s hs]
  rfl

theorem insert_then_delete_panics_witness :
    (0 : Nat) ≤ ([97] : List Nat).length ∧ ([98] : List Nat) ≠ [] ∧
    ((TextBuffer.fromText [97]).insert 0 [98]).bind
      (fun b => b.delete_range 0 (0 + ([98] : List Nat).length)) = none :=
  ⟨by decide, by decide, insert_then_delete_panics [97] 0 [98] (by decide) (by decide)⟩

/-! ## C2 — grow_gap -/

/-- C2: the claim that `grow_gap` preserves both zones with in-bounds copies
fails on the code: for every buffer state and every positive `additional`,
`grow_gap` panics — `Vec::resize(gap_end + additional)` first cuts storage
to `gap_end + additional` bytes (dropping zone 3 data beyond that), and the
copy loop then writes at `gap_end + 2·additional − 1`, beyond the resized
storage.  `none` is the panic. -/
theorem grow_gap_never_succeeds (b : TextBuffer) (additional : Nat)
    (h : 0 < additional) : b.grow_gap additional = none :=
  grow_gap_eq_none b additional h

theorem grow_gap_never_succeeds_witness :
    (0 : Nat) < 1 ∧ (TextBuffer.fromText [97]).grow_gap 1 = none :=
  ⟨by decide, grow_gap_never_succeeds (TextBuffer.fromText [97]) 1 (by decide)⟩

/-! ## C3 — move_gap with an overlapping copy -/

/-- C3: `move_gap` does set `gap_start` to the target, but the claimed
preservation of the logical text fails when the copied span overlaps its
destination.  Concretely, `from("abcd")` followed by `delete_range(3..4)`
reaches storage `abcd` with gap `[3,4)` and text `abc`; `move_gap(0)` must
keep the text `abc`, yet the ascending overlapping copy smears the first
byte across the span, leaving text `aaa`. -/
theorem move_gap_overlap_corrupts :
    (TextBuffer.fromText [97, 98, 99, 100]).delete_range 3 4 = some cexBuf0 ∧
    cexBuf0.as_str = [97, 98, 99] ∧
    cexBuf0.move_gap 0 = some cexBuf1 ∧
    cexBuf1.gap_start = 0 ∧
    cexBuf1.as_str = [97, 97, 97] ∧
    cexBuf1.as_str ≠ cexBuf0.as_str := by decide

/-! ## C9 — from / as_text round trip -/

/-- C9: building a store from a text and reading it back yields the text
unchanged — the gap is empty and sits at the end, so `as_str` concatenates
exactly the text's bytes and nothing from the gap. -/
theorem from_text_round_trip (t : List Nat) (h : utf8Valid t = true) :
    (TextBuffer.fromText t).as_str = t := by
  show decodeLossy (t.take t.length) ++ decodeLossy (t.drop t.length) = t
  rw [List.take_length, List.drop_length, decodeLossy_of_valid t h]
  show t ++ ([] : List Nat) = t
  simp

theorem from_text_round_trip_witness :
    utf8Valid [104, 105] = true ∧ (TextBuffer.fromText [104, 105]).as_str = [104, 105] :=
  ⟨by decide, from_text_round_trip [104, 105] (by decide)⟩

/-! ## C7 — insert beyond the end -/

/-- C7: the claim that `insert` past `length()` fails with `OutOfRange`
leaving the text unchanged is false: the code has no error path at all.  At
position 5 of the 1-byte store `"a"`, inserting the empty string simply
succeeds (`isSome`) and the stored text stays `"a"` — no `OutOfRange` is
ever produced. -/
theorem insert_oob_no_error :
    ((TextBuffer.fromText [97]).insert 5 []).isSome = true ∧
    ((TextBuffer.fromText [97]).insert 5 []).map TextBuffer.as_str = some [97] := by
  decide

theorem move_gap_clamp (b : TextBuffer) (hwf : b.WF) (p : Nat) (hp : b.len < p) :
    b.move_gap p = b.move_gap b.len := by
  obtain ⟨h1, h2⟩ := hwf
  obtain ⟨st, gs, ge, ls, dc⟩ := b
  simp only at h1 h2
  have hL : TextBuffer.len ⟨st, gs, ge, ls, dc⟩ = st.length - (ge - gs) := rfl
  rw [hL] at hp ⊢
  by_cases he : st.length - (ge - gs) = gs
  · have lhs : TextBuffer.move_gap ⟨st, gs, ge, ls, dc⟩ p = some ⟨st, gs, ge, ls, dc⟩ := by
      simp only [TextBuffer.move_gap, hL]
      rw [if_neg (show ¬p = gs from by omega)]
      rw [show min p (st.length - (ge - gs)) = gs from by omega]
      rw [if_neg (show ¬gs < gs from by omega)]
      rw [Nat.sub_self]
      show some _ = some _
      simp
    have rhs : TextBuffer.move_gap ⟨st, gs, ge, ls, dc⟩ (st.length - (ge - gs)) =
        some ⟨st, gs, ge, ls, dc⟩ := by
      simp only [TextBuffer.move_gap, hL]
      rw [if_pos he]
    rw [lhs, rhs]
  · simp only [TextBuffer.move_gap, hL]
    rw [if_neg (show ¬p = gs from by omega), if_neg he]
    rw [show min p (st.length - (ge - gs)) = st.length - (ge - gs) from by omega,
      min_self]

/-- C7 (amended): `insert` past `length()` does not fail with `OutOfRange`;
`move_gap` clamps the position to the logical length, so the call behaves
exactly like an insert at the end of the text. -/
theorem insert_oob_clamps (b : TextBuffer) (p : Nat) (s : List Nat)
    (hwf : b.WF) (hp : b.len < p) : b.insert p s = b.insert b.len s := by
  simp only [TextBuffer.insert]
  rw [move_gap_clamp b hwf p hp]

theorem insert_oob_clamps_witness :
    (TextBuffer.fromText [97]).WF ∧ (TextBuffer.fromText [97]).len < 5 ∧
    (TextBuffer.fromText [97]).insert 5 [98] =
      (TextBuffer.fromText [97]).insert (TextBuffer.fromText [97]).len [98] :=
  ⟨by decide, by decide, insert_oob_clamps (TextBuffer.fromText [97]) 5 [98]
    (by decide) (by decide)⟩

/-! ## C4 — rendering "# Title" -/

/-- C4 (counterexample): the renderer does not return `[Heading(1,"Title")]`
for `"# Title"` — heading start/end events fall into the catch-all arm, so
the text becomes a top-level paragraph instead. -/
theorem render_hash_title_not_heading :
    renderEvents eventsHashTitle ≠ [.heading 1 "Title"] := by
  intro h
  rw [show renderEvents eventsHashTitle = [.paragraph "Title"] from rfl] at h
  simp only [List.cons.injEq] at h
  exact RenderedElement.noConfusion h.1

/-- C4 (amended): `render("# Title")` returns exactly `[Paragraph("Title")]`:
the heading tags are ignored and the heading text falls through to a
top-level paragraph. -/
theorem render_hash_title_paragraph :
    renderEvents eventsHashTitle = [.paragraph "Title"] := rfl

/-! ## C5 — destination of a completed list -/

/-- C5 (counterexample): on a nested list the inner completed list is NOT
emitted into the enclosing (still open) list item: both lists end up as
separate top-level elements, so the output has two elements instead of the
claimed single nested one. -/
theorem nested_list_emitted_at_top_level :
    renderEvents eventsNestedList =
      [.unorderedList [[.paragraph "a"]], .unorderedList [[]]] ∧
    renderEvents eventsNestedList ≠
      [.unorderedList [[.unorderedList [[.paragraph "a"]]]]] := by
  refine ⟨rfl, ?_⟩
  intro h
  rw [show renderEvents eventsNestedList =
    [.unorderedList [[.paragraph "a"]], .unorderedList [[]]] from rfl] at h
  have hlen := congrArg List.length h
  simp at hlen

/-- C5 (amended): when a list-end event is processed with an open list
frame, the completed list — `OrderedList` exactly when the frame was opened
with an explicit start number (`start_num.is_some()`) — is always appended
to the top-level output `elements`, regardless of any enclosing list item or
blockquote; only the popped frame leaves `list_stack`. -/
theorem list_end_routes_to_top_level (st : RenderState) (ord : Bool)
    (items : List (List RenderedElement))
    (rest : List (Bool × List (List RenderedElement))) (n : Option Nat)
    (hstack : st.list_stack = (ord, items) :: rest) :
    (renderStep st (.stop .list)).elements =
      (RenderState.flushCurrent { st with list_stack := rest }).elements ++
        [if ord then RenderedElement.orderedList items
         else RenderedElement.unorderedList items] ∧
    (renderStep st (.stop .list)).list_stack = rest ∧
    (renderStep st (.start (.list n))).list_stack =
      (n.isSome, []) :: st.list_stack := by
  obtain ⟨els, cur, lst, bqs⟩ := st
  simp only at hstack
  subst hstack
  refine ⟨?_, ?_, ?_⟩
  · simp only [renderStep]
    cases ord <;> cases cur <;> simp [RenderState.flushCurrent]
  · simp only [renderStep]
    cases ord <;> cases cur <;> simp [RenderState.flushCurrent]
  · simp only [renderStep]
    cases cur <;> simp [RenderState.flushCurrent]

theorem list_end_routes_to_top_level_witness :
    (RenderState.mk [] none [(false, [])] []).list_stack =
      (false, ([] : List (List RenderedElement))) :: [] ∧
    ((renderStep (RenderState.mk [] none [(false, [])] []) (.stop .list)).elements =
      (RenderState.flushCurrent { RenderState.mk [] none [(false, [])] [] with
        list_stack := [] }).elements ++
        [if false then RenderedElement.orderedList []
         else RenderedElement.unorderedList []] ∧
     (renderStep (RenderState.mk [] none [(false, [])] []) (.stop .list)).list_stack
       = [] ∧
     (renderStep (RenderState.mk [] none [(false, [])] [])
        (.start (.list none))).list_stack =
       ((none : Option Nat).isSome, []) ::
         (RenderState.mk [] none [(false, [])] []).list_stack) :=
  ⟨rfl, list_end_routes_to_top_level _ false [] [] none rfl⟩

/-! ## C8 — the history cap -/

theorem histStep_bound (h : EditHistory) (op : HistOp) (h1 : EditHistory)
    (hstep : histStep h op = some h1)
    (hinv : h.undo_stack.length + h.redo_stack.length ≤ h.max_size) :
    h1.max_size = h.max_size ∧
    h1.undo_stack.length + h1.redo_stack.length ≤ h.max_size := by
  cases op with
  | push e =>
    simp only [histStep, EditHistory.push] at hstep
    by_cases hfull : h.max_size ≤ h.undo_stack.length
    · rw [if_pos hfull] at hstep
      cases hu : h.undo_stack with
      | nil => rw [hu] at hstep; exact absurd hstep (by simp)
      | cons x t =>
        rw [hu] at hstep
        simp only [Option.some.injEq] at hstep
        subst hstep
        constructor
        · rfl
        · simp
          have : h.undo_stack.length = t.length + 1 := by rw [hu]; simp
          omega
    · rw [if_neg hfull] at hstep
      simp only [Option.some.injEq] at hstep
      subst hstep
      constructor
      · rfl
      · simp; omega
  | undo =>
    simp only [histStep, EditHistory.undo] at hstep
    cases hg : h.undo_stack.getLast? with
    | none =>
      rw [hg] at hstep
      simp only [Option.some.injEq] at hstep
      subst hstep
      exact ⟨rfl, hinv⟩
    | some e =>
      rw [hg] at hstep
      simp only [Option.some.injEq] at hstep
      subst hstep
      have hne : h.undo_stack ≠ [] := by
        intro hnil; rw [hnil] at hg; simp at hg
      constructor
      · rfl
      · simp [List.length_dropLast]
        have : 1 ≤ h.undo_stack.length := by
          cases hu : h.undo_stack with
          | nil => exact absurd hu hne
          | cons a t => simp
        omega
  | redo =>
    simp only [histStep, EditHistory.redo] at hstep
    cases hg : h.redo_stack.getLast? with
    | none =>
      rw [hg] at hstep
      simp only [Option.some.injEq] at hstep
      subst hstep
      exact ⟨rfl, hinv⟩
    | some e =>
      rw [hg] at hstep
      simp only [Option.some.injEq] at hstep
      subst hstep
      have hne : h.redo_stack ≠ [] := by
        intro hnil; rw [hnil] at hg; simp at hg
      constructor
      · rfl
      · simp [List.length_dropLast]
        have : 1 ≤ h.redo_stack.length := by
          cases hu : h.redo_stack with
          | nil => exact absurd hu hne
          | cons a t => simp
        omega

theorem histRun_bound (ops : List HistOp) : ∀ (h h1 : EditHistory),
    histRun h ops = some h1 →
    h.undo_stack.length + h.redo_stack.length ≤ h.max_size →
    h1.max_size = h.max_size ∧
    h1.undo_stack.length + h1.redo_stack.length ≤ h.max_size := by
  induction ops with
  | nil =>
    intro h h1 hrun hinv
    simp only [histRun, Option.some.injEq] at hrun
    subst hrun
    exact ⟨rfl, hinv⟩
  | cons op ops ih =>
    intro h h1 hrun hinv
    simp only [histRun] at hrun
    cases hstep : histStep h op with
    | none => rw [hstep] at hrun; exact absurd hrun (by simp)
    | some hmid =>
      rw [hstep] at hrun
      simp only [Option.some_bind] at hrun
      obtain ⟨hmax, hsum⟩ := histStep_bound h op hmid hstep hinv
      obtain ⟨hmax2, hsum2⟩ := ih hmid h1 hrun (by rw [hmax]; exact hsum)
      exact ⟨by rw [hmax2, hmax], by rw [hmax] at hsum2; exact hsum2⟩

/-- C8: starting from `EditHistory::new(max_size)`, any sequence of push,
undo and redo calls that completes (no panic) leaves `undo_stack.len() ≤
max_size` — in particular `redo`, which pushes back without a capacity
check, cannot breach the bound, because `undo_stack.len() + redo_stack.len()`
never exceeds `max_size`.  Moreover a push landing on a full stack evicts
exactly the oldest record (index 0) and keeps the newer ones, appending the
new record. -/
theorem history_cap_holds (m : Nat) (ops : List HistOp) (h : EditHistory)
    (hrun : histRun (EditHistory.new m) ops = some h) :
    h.undo_stack.length ≤ m ∧
    (∀ e : Edit, h.undo_stack.length = m → 0 < m →
      h.push e = some { h with undo_stack := h.undo_stack.tail ++ [e],
                               redo_stack := [] }) := by
  obtain ⟨hmax, hsum⟩ := histRun_bound ops (EditHistory.new m) h hrun (by
    simp [EditHistory.new])
  simp only [EditHistory.new] at hmax hsum
  constructor
  · omega
  · intro e hlen hpos
    simp only [EditHistory.push]
    rw [if_pos (by omega)]
    cases hu : h.undo_stack with
    | nil => rw [hu] at hlen; simp at hlen; omega
    | cons x t => simp

theorem history_cap_holds_witness :
    histRun (EditHistory.new 1)
      [.push cexEdit1, .push cexEdit2, .undo, .redo] =
      some { undo_stack := [cexEdit2], redo_stack := [], max_size := 1 } ∧
    (({ undo_stack := [cexEdit2], redo_stack := [], max_size := 1 } :
        EditHistory).undo_stack.length ≤ 1 ∧
     (∀ e : Edit, ({ undo_stack := [cexEdit2], redo_stack := [], max_size := 1 } :
        EditHistory).undo_stack.length = 1 → 0 < 1 →
       EditHistory.push { undo_stack := [cexEdit2], redo_stack := [], max_size := 1 } e =
         some { undo_stack := ([cexEdit2] : List Edit).tail ++ [e], redo_stack := [],
                max_size := 1 })) :=
  ⟨by decide, history_cap_holds 1 [.push cexEdit1, .push cexEdit2, .undo, .redo]
    { undo_stack := [cexEdit2], redo_stack := [], max_size := 1 } (by decide)⟩


/-! ## C6 — undo/redo symmetry -/

/-- C6: the claimed undo-all/redo-all symmetry fails on the code.  Recording
the edits `"ab"→"A"` at 0 and `"f"→"F"` at 4 on `"abcdef"` succeeds and
yields `"AcdeF"`; both undos complete (leaving the corrupted text `"abcccc"`
instead of `"abcdef"`, due to `move_gap`'s overlapping copy), `can_undo`
then reports `false`, and after redoing both edits the text is `"AcccF"`,
not the pre-undo `"AcdeF"`.  (The `can_undo`/`can_redo` stack-emptiness
bookkeeping itself behaves as claimed; the restored text does not.) -/
theorem undo_redo_does_not_restore :
    Editor.new.set_text [97, 98, 99, 100, 101, 102] = cexEd0 ∧
    cexEd0.apply_edit cexEdit1 = some cexEd1 ∧
    cexEd1.apply_edit cexEdit2 = some cexEd2 ∧
    cexEd2.text = [65, 99, 100, 101, 70] ∧
    cexEd2.undo = some cexEd3 ∧
    cexEd3.undo = some cexEd4 ∧
    cexEd4.can_undo = false ∧
    cexEd4.text = [97, 98, 99, 99, 99, 99] ∧
    cexEd4.redo = some cexEd5 ∧
    cexEd5.redo = some cexEd6 ∧
    cexEd6.text = [65, 99, 99, 99, 70] ∧
    ([65, 99, 99, 99, 70] : List Nat) ≠ [65, 99, 100, 101, 70] :=
  ⟨rfl, rfl, rfl, rfl, rfl, rfl, rfl, rfl, rfl, rfl, rfl, by decide⟩

/-! ## UTF-8 validity lemmas (for C10) -/

theorem utf8Valid_cons (b : Nat) (l : List Nat) : utf8Valid (b :: l) =
    (if b < 128 then utf8Valid l
    else if b < 194 then false
    else if b < 224 then
      match l with
      | b1 :: l1 => isCont b1 && utf8Valid l1
      | [] => false
    else if b < 240 then
      match l with
      | b1 :: b2 :: l2 => isSecond3 b b1 && isCont b2 && utf8Valid l2
      | _ => false
    else if b < 245 then
      match l with
      | b1 :: b2 :: b3 :: l3 => isSecond4 b b1 && isCont b2 && isCont b3 && utf8Valid l3
      | _ => false
    else false) := by
  match l with
  | [] => rfl
  | [b1] => rfl
  | [b1, b2] => rfl
  | [b1, b2, b3] => rfl
  | b1 :: b2 :: b3 :: b4 :: l4 => rfl

theorem isCont_false_of_ascii (c : Nat) (hc : c < 128) : isCont c = false := by
  simp [isCont]; omega

theorem isSecond3_false_of_ascii (b c : Nat) (hc : c < 128) : isSecond3 b c = false := by
  simp only [isSecond3]
  split
  · simp; omega
  · split
    · simp; omega
    · exact isCont_false_of_ascii c hc

theorem isSecond4_false_of_ascii (b c : Nat) (hc : c < 128) : isSecond4 b c = false := by
  simp only [isSecond4]
  split
  · simp; omega
  · split
    · simp; omega
    · exact isCont_false_of_ascii c hc

theorem utf8_append : ∀ (n : Nat) (xs : List Nat), xs.length ≤ n → ∀ (ys : List Nat),
    utf8Valid xs = true → utf8Valid ys = true → utf8Valid (xs ++ ys) = true := by
  intro n
  induction n with
  | zero =>
    intro xs hn ys hxs hys
    have : xs = [] := List.length_eq_zero.mp (by omega)
    subst this
    simpa using hys
  | succ k ih =>
    intro xs hn ys hxs hys
    match xs with
    | [] => simpa using hys
    | b :: l =>
      rw [List.cons_append]
      rw [utf8Valid_cons] at hxs ⊢
      by_cases hb1 : b < 128
      · rw [if_pos hb1] at hxs ⊢
        exact ih l (by simp at hn; omega) ys hxs hys
      · rw [if_neg hb1] at hxs ⊢
        by_cases hb2 : b < 194
        · rw [if_pos hb2] at hxs; exact absurd hxs (by simp)
        · rw [if_neg hb2] at hxs ⊢
          by_cases hb3 : b < 224
          · rw [if_pos hb3] at hxs ⊢
            match l with
            | [] => exact absurd hxs (by simp)
            | b1 :: l1 =>
              simp only [List.cons_append]
              simp only [Bool.and_eq_true] at hxs ⊢
              exact ⟨hxs.1, ih l1 (by simp at hn; omega) ys hxs.2 hys⟩
          · rw [if_neg hb3] at hxs ⊢
            by_cases hb4 : b < 240
            · rw [if_pos hb4] at hxs ⊢
              match l with
              | [] => exact absurd hxs (by simp)
              | [b1] => exact absurd hxs (by simp)
              | b1 :: b2 :: l2 =>
                simp only [List.cons_append]
                simp only [Bool.and_eq_true] at hxs ⊢
                exact ⟨hxs.1, ih l2 (by simp at hn; omega) ys hxs.2 hys⟩
            · rw [if_neg hb4] at hxs ⊢
              by_cases hb5 : b < 245
              · rw [if_pos hb5] at hxs ⊢
                match l with
                | [] => exact absurd hxs (by simp)
                | [b1] => exact absurd hxs (by simp)
                | [b1, b2] => exact absurd hxs (by simp)
                | b1 :: b2 :: b3 :: l3 =>
                  simp only [List.cons_append]
                  simp only [Bool.and_eq_true] at hxs ⊢
                  exact ⟨hxs.1, ih l3 (by simp at hn; omega) ys hxs.2 hys⟩
              · rw [if_neg hb5] at hxs; exact absurd hxs (by simp)

theorem utf8_split : ∀ (n : Nat) (xs : List Nat), xs.length ≤ n → ∀ (c : Nat) (ys : List Nat),
    c < 128 → utf8Valid (xs ++ c :: ys) = true →
    utf8Valid xs = true ∧ utf8Valid ys = true := by
  intro n
  induction n with
  | zero =>
    intro xs hn c ys hc h
    have hxs : xs = [] := List.length_eq_zero.mp (by omega)
    subst hxs
    rw [List.nil_append, utf8Valid_cons, if_pos hc] at h
    exact ⟨rfl, h⟩
  | succ k ih =>
    intro xs hn c ys hc h
    match xs with
    | [] =>
      rw [List.nil_append, utf8Valid_cons, if_pos hc] at h
      exact ⟨rfl, h⟩
    | b :: l =>
      rw [List.cons_append, utf8Valid_cons] at h
      rw [utf8Valid_cons]
      by_cases hb1 : b < 128
      · rw [if_pos hb1] at h ⊢
        exact ⟨(ih l (by simp at hn; omega) c ys hc h).1,
               (ih l (by simp at hn; omega) c ys hc h).2⟩
      · rw [if_neg hb1] at h ⊢
        by_cases hb2 : b < 194
        · rw [if_pos hb2] at h; exact absurd h (by simp)
        · rw [if_neg hb2] at h ⊢
          by_cases hb3 : b < 224
          · rw [if_pos hb3] at h ⊢
            match l with
            | [] =>
              replace h : (isCont c && utf8Valid ys) = true := h
              rw [isCont_false_of_ascii c hc] at h
              exact absurd h (by simp)
            | b1 :: l1 =>
              replace h : (isCont b1 && utf8Valid (l1 ++ c :: ys)) = true := h
              simp only [Bool.and_eq_true] at h
              obtain ⟨h1, h2⟩ := h
              obtain ⟨h3, h4⟩ := ih l1 (by simp at hn; omega) c ys hc h2
              refine ⟨?_, h4⟩
              show (isCont b1 && utf8Valid l1) = true
              rw [h1, h3]
              rfl
          · rw [if_neg hb3] at h ⊢
            by_cases hb4 : b < 240
            · rw [if_pos hb4] at h ⊢
              match l with
              | [] =>
                match ys with
                | [] => exact absurd h (by simp)
                | y :: ys2 =>
                  replace h : (isSecond3 b c && isCont y && utf8Valid ys2) = true := h
                  rw [isSecond3_false_of_ascii b c hc] at h
                  exact absurd h (by simp)
              | [b1] =>
                replace h : (isSecond3 b b1 && isCont c && utf8Valid ys) = true := h
                rw [isCont_false_of_ascii c hc] at h
                exact absurd h (by simp)
              | b1 :: b2 :: l2 =>
                replace h : (isSecond3 b b1 && isCont b2 && utf8Valid (l2 ++ c :: ys)) = true := h
                simp only [Bool.and_eq_true] at h
                obtain ⟨h1, h2⟩ := h
                obtain ⟨h3, h4⟩ := ih l2 (by simp at hn; omega) c ys hc h2
                refine ⟨?_, h4⟩
                show (isSecond3 b b1 && isCont b2 && utf8Valid l2) = true
                rw [h3]
                simp only [Bool.and_eq_true]
                exact ⟨h1, trivial⟩
            · rw [if_neg hb4] at h ⊢
              by_cases hb5 : b < 245
              · rw [if_pos hb5] at h ⊢
                match l with
                | [] =>
                  match ys with
                  | [] => exact absurd h (by simp)
                  | [y] => exact absurd h (by simp)
                  | y1 :: y2 :: ys2 =>
                    replace h : (isSecond4 b c && isCont y1 && isCont y2 &&
                      utf8Valid ys2) = true := h
                    rw [isSecond4_false_of_ascii b c hc] at h
                    exact absurd h (by simp)
                | [b1] =>
                  match ys with
                  | [] => exact absurd h (by simp)
                  | y :: ys2 =>
                    replace h : (isSecond4 b b1 && isCont c && isCont y &&
                      utf8Valid ys2) = true := h
                    rw [isCont_false_of_ascii c hc] at h
                    exact absurd h (by simp)
                | [b1, b2] =>
                  replace h : (isSecond4 b b1 && isCont b2 && isCont c &&
                    utf8Valid ys) = true := h
                  rw [isCont_false_of_ascii c hc] at h
                  exact absurd h (by simp)
                | b1 :: b2 :: b3 :: l3 =>
                  replace h : (isSecond4 b b1 && isCont b2 && isCont b3 &&
                    utf8Valid (l3 ++ c :: ys)) = true := h
                  simp only [Bool.and_eq_true] at h
                  obtain ⟨h1, h2⟩ := h
                  obtain ⟨h3, h4⟩ := ih l3 (by simp at hn; omega) c ys hc h2
                  refine ⟨?_, h4⟩
                  show (isSecond4 b b1 && isCont b2 && isCont b3 && utf8Valid l3) = true
                  rw [h3]
                  simp only [Bool.and_eq_true]
                  exact ⟨h1, trivial⟩
              · rw [if_neg hb5] at h; exact absurd h (by simp)

theorem valid_take_nl (t : List Nat) (q : Nat) (hv : utf8Valid t = true)
    (hq : t[q]? = some 10) : utf8Valid (t.take (q + 1)) = true := by
  have hql : q < t.length := by
    by_contra hc
    rw [List.getElem?_eq_none (by omega)] at hq
    exact absurd hq (by simp)
  have h10 : t[q] = 10 := by
    rw [List.getElem?_eq_getElem hql] at hq
    exact Option.some.inj hq
  have hdec : t = t.take q ++ t[q] :: t.drop (q + 1) := by
    conv_lhs => rw [← List.take_append_drop q t]
    rw [List.drop_eq_getElem_cons hql]
  rw [hdec, h10] at hv
  obtain ⟨h1, _⟩ := utf8_split (t.take q).length (t.take q) le_rfl 10 (t.drop (q + 1))
    (by omega) hv
  rw [List.take_succ, hq]
  exact utf8_append (t.take q).length (t.take q) le_rfl [10] h1 (by decide)

theorem valid_drop_nl (t : List Nat) (q : Nat) (hv : utf8Valid t = true)
    (hq : t[q]? = some 10) : utf8Valid (t.drop (q + 1)) = true := by
  have hql : q < t.length := by
    by_contra hc
    rw [List.getElem?_eq_none (by omega)] at hq
    exact absurd hq (by simp)
  have h10 : t[q] = 10 := by
    rw [List.getElem?_eq_getElem hql] at hq
    exact Option.some.inj hq
  have hdec : t = t.take q ++ t[q] :: t.drop (q + 1) := by
    conv_lhs => rw [← List.take_append_drop q t]
    rw [List.drop_eq_getElem_cons hql]
  rw [hdec, h10] at hv
  exact (utf8_split (t.take q).length (t.take q) le_rfl 10 (t.drop (q + 1))
    (by omega) hv).2

theorem valid_take_bdry (u : List Nat) (hv : utf8Valid u = true) (b : Nat)
    (hb : b = u.length ∨ (0 < b ∧ u[b - 1]? = some 10)) :
    utf8Valid (u.take b) = true := by
  rcases hb with hb | ⟨hb0, hb1⟩
  · rw [hb, List.take_length]; exact hv
  · rw [show b = (b - 1) + 1 from by omega]
    exact valid_take_nl u (b - 1) hv hb1

theorem valid_drop_bdry (u : List Nat) (hv : utf8Valid u = true) (a : Nat)
    (ha : a = 0 ∨ (0 < a ∧ u[a - 1]? = some 10)) :
    utf8Valid (u.drop a) = true := by
  rcases ha with ha | ⟨ha0, ha1⟩
  · rw [ha, List.drop_zero]; exact hv
  · rw [show a = (a - 1) + 1 from by omega]
    exact valid_drop_nl u (a - 1) hv ha1

theorem sliceL_eq_drop_take (t : List Nat) (a b : Nat) :
    sliceL t a b = (t.drop a).take (b - a) := by
  simp [sliceL, List.drop_take]

theorem valid_sliceL (t : List Nat) (hv : utf8Valid t = true) (a b : Nat)
    (hab : a ≤ b) (hbl : b ≤ t.length)
    (ha : a = 0 ∨ (0 < a ∧ t[a - 1]? = some 10))
    (hb : b = t.length ∨ (0 < b ∧ t[b - 1]? = some 10)) :
    utf8Valid (sliceL t a b) = true := by
  by_cases hab2 : a = b
  · subst hab2
    have : sliceL t a a = [] := by
      apply List.drop_eq_nil_of_le
      simp
    rw [this]
    rfl
  · have hd := valid_drop_bdry t hv a ha
    rw [sliceL_eq_drop_take]
    apply valid_take_bdry (t.drop a) hd (b - a)
    rcases hb with hbl2 | ⟨hb0, hb1⟩
    · left
      rw [List.length_drop]
      omega
    · right
      refine ⟨by omega, ?_⟩
      rw [List.getElem?_drop]
      rw [show a + (b - a - 1) = b - 1 from by omega]
      exact hb1

/-! ## Line-start table lemmas (for C10) -/

theorem lineStartsAux_cons (flen c : Nat) (rest : List Nat) (i : Nat) :
    TextBuffer.lineStartsAux flen (c :: rest) i =
      if c = 10 then
        (if i + 1 ≤ flen then [i + 1] else []) ++
          TextBuffer.lineStartsAux flen rest (i + 1)
      else TextBuffer.lineStartsAux flen rest (i + 1) := rfl

theorem mem_lineStartsAux (t : List Nat) : ∀ (n i p : Nat), t.length - i = n →
    (p ∈ TextBuffer.lineStartsAux t.length (t.drop i) i ↔
      (i < p ∧ p ≤ t.length ∧ t[p - 1]? = some 10)) := by
  intro n
  induction n with
  | zero =>
    intro i p hn
    have hi : t.length ≤ i := by omega
    rw [List.drop_eq_nil_of_le hi]
    show p ∈ ([] : List Nat) ↔ _
    simp only [List.not_mem_nil, false_iff]
    rintro ⟨h1, h2, _⟩
    omega
  | succ m ih =>
    intro i p hn
    have hi : i < t.length := by omega
    rw [List.drop_eq_getElem_cons hi, lineStartsAux_cons]
    rw [if_pos (show i + 1 ≤ t.length from by omega)]
    by_cases h10 : t[i] = 10
    · rw [if_pos h10, List.singleton_append, List.mem_cons, ih (i + 1) p (by omega)]
      constructor
      · rintro (rfl | ⟨h1, h2, h3⟩)
        · refine ⟨by omega, by omega, ?_⟩
          rw [show i + 1 - 1 = i from by omega, List.getElem?_eq_getElem hi, h10]
        · exact ⟨by omega, h2, h3⟩
      · rintro ⟨h1, h2, h3⟩
        by_cases hp : p = i + 1
        · exact Or.inl hp
        · exact Or.inr ⟨by omega, h2, h3⟩
    · rw [if_neg h10, ih (i + 1) p (by omega)]
      constructor
      · rintro ⟨h1, h2, h3⟩
        exact ⟨by omega, h2, h3⟩
      · rintro ⟨h1, h2, h3⟩
        refine ⟨?_, h2, h3⟩
        by_cases hp : p = i + 1
        · subst hp
          rw [show i + 1 - 1 = i from by omega, List.getElem?_eq_getElem hi] at h3
          exact absurd (Option.some.inj h3) h10
        · omega

theorem chain_lineStartsAux (t : List Nat) : ∀ (n i : Nat), t.length - i = n →
    List.Chain' (· < ·) (TextBuffer.lineStartsAux t.length (t.drop i) i) := by
  intro n
  induction n with
  | zero =>
    intro i hn
    rw [List.drop_eq_nil_of_le (by omega)]
    exact List.chain'_nil
  | succ m ih =>
    intro i hn
    have hi : i < t.length := by omega
    rw [List.drop_eq_getElem_cons hi, lineStartsAux_cons]
    rw [if_pos (show i + 1 ≤ t.length from by omega)]
    by_cases h10 : t[i] = 10
    · rw [if_pos h10, List.singleton_append]
      rw [List.chain'_cons']
      refine ⟨?_, ih (i + 1) (by omega)⟩
      intro b hb
      have hmem := List.mem_of_mem_head? hb
      have := (mem_lineStartsAux t m (i + 1) b (by omega)).mp hmem
      omega
    · rw [if_neg h10]
      exact ih (i + 1) (by omega)

theorem mem_lineStartsOf (t : List Nat) (p : Nat) :
    p ∈ TextBuffer.lineStartsOf t ↔
      (p = 0 ∨ (0 < p ∧ p ≤ t.length ∧ t[p - 1]? = some 10)) := by
  show p ∈ 0 :: TextBuffer.lineStartsAux t.length t 0 ↔ _
  rw [List.mem_cons]
  have haux := mem_lineStartsAux t (t.length - 0) 0 p rfl
  simp only [List.drop_zero] at haux
  rw [haux]

theorem chain_lineStartsOf (t : List Nat) :
    List.Chain' (· < ·) (TextBuffer.lineStartsOf t) := by
  show List.Chain' (· < ·) (0 :: TextBuffer.lineStartsAux t.length t 0)
  rw [List.chain'_cons']
  constructor
  · intro b hb
    have hmem := List.mem_of_mem_head? hb
    have haux := mem_lineStartsAux t (t.length - 0) 0 b rfl
    simp only [List.drop_zero] at haux
    have := haux.mp hmem
    omega
  · have haux := chain_lineStartsAux t (t.length - 0) 0 rfl
    simp only [List.drop_zero] at haux
    exact haux

/-! ## Substring correctness over the gap (for C10) -/

theorem substring_eq_slice (b : TextBuffer) (hwf : b.WF) (hz : b.ZonesValid)
    (s e : Nat) (hse : s ≤ e) (hel : e ≤ b.len)
    (hs : s = 0 ∨ (0 < s ∧ b.as_str[s - 1]? = some 10))
    (he : e = b.as_str.length ∨ (0 < e ∧ b.as_str[e - 1]? = some 10)) :
    b.substring s e = some (sliceL b.as_str s e) := by
  obtain ⟨h1, h2⟩ := hwf
  obtain ⟨hz1, hz3⟩ := hz
  obtain ⟨st, gs, ge, ls, dc⟩ := b
  dsimp only at h1 h2 hz1 hz3 hse hel hs he ⊢
  have hlen1 : (st.take gs).length = gs := by simp; omega
  have hlen3 : (st.drop ge).length = st.length - ge := by simp
  have ht : TextBuffer.as_str ⟨st, gs, ge, ls, dc⟩ = st.take gs ++ st.drop ge := by
    show decodeLossy (st.take gs) ++ decodeLossy (st.drop ge) = _
    rw [decodeLossy_of_valid _ hz1, decodeLossy_of_valid _ hz3]
  have hL : TextBuffer.len ⟨st, gs, ge, ls, dc⟩ = st.length - (ge - gs) := rfl
  rw [hL] at hel
  rw [ht] at hs he ⊢
  have htlen : (st.take gs ++ st.drop ge).length = st.length - (ge - gs) := by
    simp; omega
  rw [htlen] at he
  have hvt : utf8Valid (st.take gs ++ st.drop ge) = true :=
    utf8_append (st.take gs).length (st.take gs) le_rfl (st.drop ge) hz1 hz3
  have hslice_valid : utf8Valid (sliceL (st.take gs ++ st.drop ge) s e) = true := by
    apply valid_sliceL _ hvt s e hse (by omega)
    · rcases hs with hs | hs
      · exact Or.inl hs
      · exact Or.inr hs
    · rcases he with he | he
      · exact Or.inl (by omega)
      · exact Or.inr he
  simp only [TextBuffer.substring]
  by_cases hA : e ≤ gs
  · rw [if_pos (Or.inl hA), if_pos hA]
    have hr : rustSlice st s e = some ((st.take e).drop s) := by
      unfold rustSlice
      rw [if_pos ⟨hse, by omega⟩]
    rw [hr]
    simp only [Option.map_some']
    have hpiece : (st.take e).drop s = sliceL (st.take gs ++ st.drop ge) s e := by
      unfold sliceL
      rw [List.take_append_of_le_length (by omega)]
      rw [List.take_take, show min e gs = e from by omega]
    rw [hpiece, decodeLossy_of_valid _ hslice_valid]
  · by_cases hB : gs ≤ s
    · rw [if_pos (Or.inr hB), if_neg hA]
      have hr : rustSlice st (s + (ge - gs)) (e + (ge - gs)) =
          some ((st.take (e + (ge - gs))).drop (s + (ge - gs))) := by
        unfold rustSlice
        rw [if_pos ⟨by omega, by omega⟩]
      rw [hr]
      simp only [Option.map_some']
      have hpiece : (st.take (e + (ge - gs))).drop (s + (ge - gs)) =
          sliceL (st.take gs ++ st.drop ge) s e := by
        have e1 : (st.take (e + (ge - gs))).drop (s + (ge - gs)) =
            (st.drop (s + (ge - gs))).take (e - s) := by
          rw [List.drop_take]
          congr 1
          omega
        have e2 : st.drop (s + (ge - gs)) = (st.drop ge).drop (s - gs) := by
          rw [List.drop_drop]
          congr 1
          omega
        have e3 : sliceL (st.take gs ++ st.drop ge) s e =
            ((st.take gs ++ st.drop ge).drop s).take (e - s) := by
          rw [sliceL_eq_drop_take]
        rw [e1, e2, e3, List.drop_append_eq_append_drop, hlen1]
        rw [show (st.take gs).drop s = [] from
          List.drop_eq_nil_of_le (by rw [hlen1]; omega)]
        rw [List.nil_append]
      rw [hpiece, decodeLossy_of_valid _ hslice_valid]
    · rw [if_neg (by push_neg; omega)]
      have hr1 : rustSlice st s gs = some ((st.take gs).drop s) := by
        unfold rustSlice
        rw [if_pos ⟨by omega, by omega⟩]
      have hr2 : rustSlice st ge (e + (ge - gs)) =
          some ((st.take (e + (ge - gs))).drop ge) := by
        unfold rustSlice
        rw [if_pos ⟨by omega, by omega⟩]
      rw [hr1, hr2]
      simp only [Option.bind_eq_bind, Option.some_bind]
      have hp2 : (st.take (e + (ge - gs))).drop ge = (st.drop ge).take (e - gs) := by
        rw [List.drop_take]
        congr 1
        omega
      have hv1 : utf8Valid ((st.take gs).drop s) = true := by
        apply valid_drop_bdry _ hz1 s
        rcases hs with hs | ⟨hs0, hs1⟩
        · exact Or.inl hs
        · refine Or.inr ⟨hs0, ?_⟩
          rw [List.getElem?_append, if_pos (by omega)] at hs1
          exact hs1
      have hv2 : utf8Valid ((st.drop ge).take (e - gs)) = true := by
        apply valid_take_bdry _ hz3 (e - gs)
        rcases he with he | ⟨he0, he1⟩
        · left
          rw [hlen3]
          omega
        · refine Or.inr ⟨by omega, ?_⟩
          rw [List.getElem?_append, if_neg (by omega), hlen1] at he1
          rw [show e - gs - 1 = e - 1 - gs from by omega]
          exact he1
      rw [hp2, decodeLossy_of_valid _ hv1, decodeLossy_of_valid _ hv2]
      have hjoin : (st.take gs).drop s ++ (st.drop ge).take (e - gs) =
          sliceL (st.take gs ++ st.drop ge) s e := by
        unfold sliceL
        rw [List.take_append_eq_append_take]
        rw [show (st.take gs).take e = st.take gs from
          List.take_of_length_le (by rw [hlen1]; omega)]
        rw [hlen1]
        rw [List.drop_append_of_le_length (by rw [hlen1]; omega)]
      rw [hjoin]

theorem as_str_length (b : TextBuffer) (hwf : b.WF) (hz : b.ZonesValid) :
    b.as_str.length = b.len := by
  obtain ⟨h1, h2⟩ := hwf
  obtain ⟨hz1, hz3⟩ := hz
  obtain ⟨st, gs, ge, ls, dc⟩ := b
  dsimp only at h1 h2 hz1 hz3 ⊢
  show (decodeLossy (st.take gs) ++ decodeLossy (st.drop ge)).length =
    TextBuffer.len ⟨st, gs, ge, ls, dc⟩
  rw [decodeLossy_of_valid _ hz1, decodeLossy_of_valid _ hz3]
  show _ = st.length - (ge - gs)
  simp
  omega

theorem rebuild_if_needed_eq (b : TextBuffer) (hc : b.CacheOK) :
    b.rebuild_line_cache_if_needed =
      { b with line_starts := TextBuffer.lineStartsOf b.as_str,
               line_cache_dirty := false } := by
  unfold TextBuffer.rebuild_line_cache_if_needed TextBuffer.rebuild_line_cache
  rcases hc with hd | hls
  · rw [if_pos (by rw [hd])]
  · by_cases hd : b.line_cache_dirty = true
    · rw [if_pos (by rw [hd])]
    · rw [if_neg (by simpa using hd)]
      obtain ⟨st, gs, ge, ls, dc⟩ := b
      dsimp only at hls hd ⊢
      rw [hls]
      congr 1
      simpa using hd

theorem line_text_eval (b : TextBuffer) (hc : b.CacheOK) (i : Nat)
    (hil : i < (TextBuffer.lineStartsOf b.as_str).length) :
    b.line_text i =
      (b.substring (TextBuffer.lineStartsOf b.as_str)[i]
        (if h : i + 1 < (TextBuffer.lineStartsOf b.as_str).length then
          (TextBuffer.lineStartsOf b.as_str)[i + 1] else b.len)).map
        (fun u => some (trimTrail 13 (trimTrail 10 u))) := by
  simp only [TextBuffer.line_text]
  rw [rebuild_if_needed_eq b hc]
  dsimp only
  rw [if_neg (by omega)]
  rw [List.getElem?_eq_getElem hil]
  by_cases hi1 : i + 1 < (TextBuffer.lineStartsOf b.as_str).length
  · rw [if_pos hi1, List.getElem?_eq_getElem hi1, dif_pos hi1]
    rfl
  · rw [if_neg hi1, dif_neg hi1]
    rfl

/-! ## C10 — line_text -/

/-- C10: for every well-formed buffer (gap invariant, valid UTF-8 zones,
coherent-or-dirty line cache) and every line index `i`, `line_text(i)`
returns `None` exactly when `i ≥ line_count()`, and otherwise returns
`Some` of line `i`'s text — the slice of the logical text between
consecutive line starts — with the trailing newline and then any trailing
carriage returns removed.  The outer `some` says the call cannot panic. -/
theorem line_text_spec (b : TextBuffer) (hwf : b.WF) (hz : b.ZonesValid)
    (hc : b.CacheOK) (i : Nat) :
    (b.line_text i = some none ↔ b.line_count ≤ i) ∧
    (i < b.line_count → b.line_text i = some (some (specLine b.as_str i))) := by
  have hcount : b.line_count = (TextBuffer.lineStartsOf b.as_str).length := by
    unfold TextBuffer.line_count
    rw [rebuild_if_needed_eq b hc]
  have htl : b.as_str.length = b.len := as_str_length b hwf hz
  by_cases hi : (TextBuffer.lineStartsOf b.as_str).length ≤ i
  · have hend : b.line_text i = some none := by
      simp only [TextBuffer.line_text]
      rw [rebuild_if_needed_eq b hc]
      dsimp only
      rw [if_pos hi]
    constructor
    · rw [hend, hcount]
      exact ⟨fun _ => hi, fun _ => rfl⟩
    · intro hlt
      rw [hcount] at hlt
      omega
  · have hil : i < (TextBuffer.lineStartsOf b.as_str).length := by omega
    have hsprop := (mem_lineStartsOf b.as_str _).mp (List.getElem_mem hil)
    have hpair : List.Pairwise (· < ·) (TextBuffer.lineStartsOf b.as_str) :=
      List.chain'_iff_pairwise.mp (chain_lineStartsOf b.as_str)
    have hs' : (TextBuffer.lineStartsOf b.as_str)[i] = 0 ∨
        (0 < (TextBuffer.lineStartsOf b.as_str)[i] ∧
          b.as_str[(TextBuffer.lineStartsOf b.as_str)[i] - 1]? = some 10) := by
      rcases hsprop with h0 | ⟨hp0, _, hp2⟩
      · exact Or.inl h0
      · exact Or.inr ⟨hp0, hp2⟩
    have hslen : (TextBuffer.lineStartsOf b.as_str)[i] ≤ b.as_str.length := by
      rcases hsprop with h0 | ⟨_, hp1, _⟩
      · omega
      · exact hp1
    have hstart : lineStartPos b.as_str i = (TextBuffer.lineStartsOf b.as_str)[i] := by
      unfold lineStartPos
      exact List.getD_eq_getElem _ 0 hil
    rw [line_text_eval b hc i hil]
    by_cases hi1 : i + 1 < (TextBuffer.lineStartsOf b.as_str).length
    · rw [dif_pos hi1]
      have hemem := (mem_lineStartsOf b.as_str _).mp (List.getElem_mem hi1)
      have hlt2 : (TextBuffer.lineStartsOf b.as_str)[i] <
          (TextBuffer.lineStartsOf b.as_str)[i + 1] :=
        List.pairwise_iff_getElem.mp hpair i (i + 1) hil hi1 (by omega)
      have heprop : 0 < (TextBuffer.lineStartsOf b.as_str)[i + 1] ∧
          (TextBuffer.lineStartsOf b.as_str)[i + 1] ≤ b.as_str.length ∧
          b.as_str[(TextBuffer.lineStartsOf b.as_str)[i + 1] - 1]? = some 10 := by
        rcases hemem with h0 | h
        · omega
        · exact h
      have hsub := substring_eq_slice b hwf hz
        (TextBuffer.lineStartsOf b.as_str)[i]
        (TextBuffer.lineStartsOf b.as_str)[i + 1]
        (le_of_lt hlt2) (by rw [← htl]; exact heprop.2.1)
        hs' (Or.inr ⟨heprop.1, heprop.2.2⟩)
      rw [hsub]
      simp only [Option.map_some']
      have hX : specLine b.as_str i =
          trimTrail 13 (trimTrail 10 (sliceL b.as_str
            (TextBuffer.lineStartsOf b.as_str)[i]
            (TextBuffer.lineStartsOf b.as_str)[i + 1])) := by
        unfold specLine
        rw [hstart]
        unfold lineEndPos
        rw [if_pos hi1, List.getD_eq_getElem _ 0 hi1]
      constructor
      · apply iff_of_false
        · simp
        · rw [hcount]; omega
      · intro _
        rw [hX]
    · rw [dif_neg hi1]
      have hsub := substring_eq_slice b hwf hz
        (TextBuffer.lineStartsOf b.as_str)[i] b.len
        (by omega) le_rfl hs' (Or.inl htl.symm)
      rw [hsub]
      simp only [Option.map_some']
      have hX : specLine b.as_str i =
          trimTrail 13 (trimTrail 10 (sliceL b.as_str
            (TextBuffer.lineStartsOf b.as_str)[i] b.len)) := by
        unfold specLine
        rw [hstart]
        unfold lineEndPos
        rw [if_neg hi1, htl]
      constructor
      · apply iff_of_false
        · simp
        · rw [hcount]; omega
      · intro _
        rw [hX]

theorem line_text_spec_witness :
    (TextBuffer.fromText [97, 10, 98]).WF ∧
    (TextBuffer.fromText [97, 10, 98]).ZonesValid ∧
    (TextBuffer.fromText [97, 10, 98]).CacheOK ∧
    (((TextBuffer.fromText [97, 10, 98]).line_text 0 = some none ↔
        (TextBuffer.fromText [97, 10, 98]).line_count ≤ 0) ∧
     (0 < (TextBuffer.fromText [97, 10, 98]).line_count →
        (TextBuffer.fromText [97, 10, 98]).line_text 0 =
          some (some (specLine (TextBuffer.fromText [97, 10, 98]).as_str 0)))) :=
  ⟨by decide, by decide, by decide,
    line_text_spec (TextBuffer.fromText [97, 10, 98]) (by decide) (by decide)
      (by decide) 0⟩
